import Mathlib

/-!
Verification development for the "Brainteaser of the Day" Discord bot.

The definitions below are shallow embeddings of the TypeScript source:
* `src/llm.ts` — the `LLM` class: the per-thread serialized operation queue
  (`enqueueOperation` / `processQueue`) and the assistant run loop
  (`runAssistant`).
* `src/bot.ts` — the `Bot` class: the chat-id → thread-id map
  (`getThreadId`, `addMessage`, `response`).
* `src/discord_interface.ts` — the `DiscordInterface` class: the
  `subscriberChannels` array maintained by the subscribe/unsubscribe
  commands, the broadcast loops, and `activateDMChannel`.

JavaScript runs single-threaded with cooperative scheduling: code between
two `await`s is atomic, and interleaving can occur only at `await` points.
The stateful parts are therefore embedded as explicit transition systems
whose atomic steps correspond to the code segments between suspension
points; the pure parts become Lean functions.
-/

namespace Botd

/-! ### Tool calls and tool outputs (llm.ts, `runAssistant`)

A `ToolCall` mirrors the fields of an OpenAI tool call that `runAssistant`
reads: `tool_call.id`, `tool_call.function.name`,
`tool_call.function.arguments`.  A `ToolOutput` mirrors the objects built
for `submitToolOutputs`. -/

structure ToolCall where
  id : String
  name : String
  args : String
deriving DecidableEq

structure ToolOutput where
  tool_call_id : String
  output : String
deriving DecidableEq

/-- The tool catalog: `runAssistant`'s `tools` parameter, a record mapping
tool names to async handlers.  A handler takes the JSON-parsed arguments
(kept abstract as a `String`) and either returns a result string or
raises (`Except.error`). -/
def Tools : Type := String → Option (String → Except String String)

/-- The error string built in the `catch` branch of the tool-call mapper in
`runAssistant`: backtick-template
`Error occured while performing call to tool ... : ...`. -/
def toolErrorMessage (name err : String) : String :=
  "Error occured while performing call to tool " ++ name ++ ": " ++ err

/-- The message of the `TypeError` raised by JavaScript when
`tools[tool_call.function.name]` is `undefined` and is applied anyway
(the source indexes with a non-null assertion `!`). -/
def undefinedToolError : String :=
  "TypeError: tools[tool_call.function.name] is not a function"

/-- One arm of `run.required_action.submit_tool_outputs.tool_calls.map` in
`runAssistant` (llm.ts lines 110–125).  Evaluation order follows
JavaScript: the callee `tools[name]` is looked up (no throw yet), the
argument `JSON.parse(arguments)` is evaluated (may throw), then the call
happens (throws `TypeError` if the callee is `undefined`); any throw is
caught and converted into an error-string output carrying the tool name. -/
def callTool (tools : Tools) (jsonParse : String → Except String String)
    (tc : ToolCall) : ToolOutput :=
  match jsonParse tc.args with
  | Except.error e => ⟨tc.id, toolErrorMessage tc.name e⟩
  | Except.ok args =>
    match tools tc.name with
    | none => ⟨tc.id, toolErrorMessage tc.name undefinedToolError⟩
    | some f =>
      match f args with
      | Except.ok out => ⟨tc.id, out⟩
      | Except.error e => ⟨tc.id, toolErrorMessage tc.name e⟩

/-- The full batch: `await Promise.all(tool_calls.map ...)` — every
requested call is resolved to exactly one output before
`submitToolOutputs` is invoked with the whole list. -/
def collectToolOutputs (tools : Tools) (jsonParse : String → Except String String)
    (calls : List ToolCall) : List ToolOutput :=
  calls.map (callTool tools jsonParse)

/-! ### The assistant run loop (llm.ts lines 100–148)

The remote service is mocked by a script: the n-th element of the script
is what the n-th `runs.retrieve` poll reports (for a `requires_action`
poll it also fixes whether the subsequent `submitToolOutputs` succeeds).
`MsgContent` is `messages.data[0].content[0]` fetched on completion. -/

inductive MsgContent where
  | text (value : String)
  | other (ty : String)
deriving DecidableEq

inductive SvcStep where
  /-- `run.status === 'requires_action'` with these pending tool calls;
  `submitOk` records whether the `submitToolOutputs` round-trip succeeds
  or throws. -/
  | requiresAction (calls : List ToolCall) (submitOk : Bool)
  | completed
  /-- `run.status === 'failed'`; `run.last_error?.code` and
  `run.last_error?.message` are optional. -/
  | failed (code msg : Option String)
  | queued
  | inProgress
  /-- `run.status === 'incomplete'`; `details` stands for
  `JSON.stringify(run.incomplete_details)`. -/
  | incomplete (details : String)
  | unknown (status : String)
deriving DecidableEq

/-- Observable events of one `runAssistant` loop execution: each handler
invocation (one per requested tool call, in list order), each successful
batch submission, and each swallowed submission error. -/
inductive RunEv where
  | invoked (name : String) (id : String)
  | submitted (outs : List ToolOutput)
  | submitFailed
deriving DecidableEq

/-- JavaScript template-literal rendering of a possibly-undefined value,
as in backtick `${run.last_error?.code}`. -/
def jsShow : Option String → String
  | none => "undefined"
  | some s => s

/-- The `while (true)` polling loop of `runAssistant`, driven by a finite
script of poll results.  Returns `none` when the script is exhausted
before a terminal status (the real loop would keep polling), otherwise
the value returned or the error thrown, paired with the event log.

Faithful points: on `requires_action` all handlers run and the whole
batch is collected (`collectToolOutputs`) before submission; a throw from
`submitToolOutputs` is caught, logged and discarded, after which the loop
re-polls; `queued`/`in_progress` just sleep and re-poll; `completed`
returns the latest message's text or throws on a non-text content part;
`failed`/`incomplete`/anything else throw with the messages built in the
source. -/
def runAssistantLoop (tools : Tools) (jsonParse : String → Except String String)
    (latest : MsgContent) :
    List SvcStep → List RunEv → Option (Except String String) × List RunEv
  | [], log => (none, log)
  | SvcStep.requiresAction calls sOk :: rest, log =>
    let outs := collectToolOutputs tools jsonParse calls
    let log1 := log ++ calls.map (fun tc => RunEv.invoked tc.name tc.id)
    let log2 := log1 ++ [if sOk then RunEv.submitted outs else RunEv.submitFailed]
    runAssistantLoop tools jsonParse latest rest log2
  | SvcStep.completed :: _, log =>
    match latest with
    | MsgContent.text v => (some (Except.ok v), log)
    | MsgContent.other ty => (some (Except.error ("Unknown message type: " ++ ty)), log)
  | SvcStep.failed c m :: _, log =>
    (some (Except.error ("Run failed with code " ++ jsShow c ++ ": " ++ jsShow m)), log)
  | SvcStep.queued :: rest, log => runAssistantLoop tools jsonParse latest rest log
  | SvcStep.inProgress :: rest, log => runAssistantLoop tools jsonParse latest rest log
  | SvcStep.incomplete d :: _, log =>
    (some (Except.error ("Run is incomplete: " ++ d)), log)
  | SvcStep.unknown st :: _, log =>
    (some (Except.error ("Unknown run status: " ++ st)), log)

/-! ### The serialized per-thread operation queue (llm.ts lines 9–64)

`LLM` keeps `operationQueue : Record<string, QueuedOperation[]>` and
`processingPromise : Record<string, Promise<void> | null>`.
`enqueueOperation(threadId, op)` wraps `op` so that its result (or
failure) is delivered to the promise returned to the enqueuing caller,
pushes the wrapper, and calls `processQueue(threadId)`.  `processQueue`
either finds `processingPromise[threadId]` non-null, awaits it and
returns (lines 22–26), or starts a worker: an async block that shifts
and awaits operations until the key's list is empty (lines 29–40), after
which the creator awaits that promise and only then clears
`processingPromise[threadId]` (lines 43–46).

JavaScript is single-threaded: `enqueueOperation`'s push together with
`processQueue`'s null check (and, when null, the creation of the worker)
run atomically, since no `await` separates them.  The worker suspends
exactly while `await operation()` is pending.  Crucially,
`processingPromise[k]` is in one of three observable conditions, not
two: null; a promise whose worker loop is still running; or a promise
that has already resolved (the loop exited on an empty list) but that
has not yet been cleared, because the clearing continuation of line 46
has not run.  An `enqueueOperation` that lands in this last window
pushes its wrapper, sees the stale non-null promise, awaits it and
returns — no worker is started for the pushed operation.  `PromiseSt`
captures the three conditions and the transition system has one event
per atomic code segment:

* `enqueue k op` — push the wrapper; if `processingPromise[k]` is null,
  `processQueue` starts a worker; otherwise (running or stale) it only
  awaits the existing promise.
* `start k op` — the looping worker shifts the head of `k`'s list and
  begins awaiting it.
* `finish k op ok` — the awaited operation settles; the wrapper resolves
  (`ok = true`) or rejects (`ok = false`) the promise of `op`'s enqueuing
  caller, and the worker's `try/catch` swallows any rejection so the
  worker survives either way.
* `workerExit k` — the worker's loop finds `k`'s list empty and the
  worker promise resolves; the promise is now stale but still set.
* `clearPromise k` — the creator's continuation of line 46 runs and
  sets `processingPromise[k] = null`.

Operations are identified by distinct `Nat` ids (each `QueuedOperation`
closure is a distinct object; the freshness condition on `enqueue`
expresses this).  Besides the source's two records the state carries
history fields — `enqHist`, `finHist` (per-key enqueue/finish order) and
`delivered` (per-operation settlement of the caller's promise) — which
only record what happened and constrain nothing. -/

/-- Pointwise update of a key-indexed map, as assignment to
`record[key]` in the source. -/
def upd {α : Type} (f : String → α) (k : String) (v : α) : String → α :=
  fun k' => if k' = k then v else f k'

/-- The three observable conditions of `processingPromise[k]`. -/
inductive PromiseSt where
  /-- `processingPromise[k]` is null (or was never set). -/
  | cleared
  /-- The promise of a worker whose shift-and-await loop is still
  running. -/
  | looping
  /-- The promise has resolved — the loop exited on an empty list — but
  line 46 has not yet run, so the record still holds it. -/
  | stale
deriving DecidableEq

structure QState where
  /-- `operationQueue[k]`: pending operation ids, FIFO. -/
  pending : String → List Nat
  /-- The condition of `processingPromise[k]`. -/
  promiseSt : String → PromiseSt
  /-- The operation the worker of `k` is currently awaiting, if any. -/
  running : String → Option Nat
  /-- History: all ids ever enqueued for `k`, in enqueue order. -/
  enqHist : String → List Nat
  /-- History: all ids finished for `k`, in completion order. -/
  finHist : String → List Nat
  /-- History: settlement of each operation's caller promise
  (`some true` resolved, `some false` rejected). -/
  delivered : Nat → Option Bool
  /-- All ids ever used, for freshness of `enqueue`. -/
  used : List Nat

/-- The `LLM` constructor state: both records empty, nothing enqueued. -/
def initQ : QState where
  pending := fun _ => []
  promiseSt := fun _ => PromiseSt.cleared
  running := fun _ => none
  enqHist := fun _ => []
  finHist := fun _ => []
  delivered := fun _ => none
  used := []

inductive QEv where
  | enqueue (k : String) (op : Nat)
  | start (k : String) (op : Nat)
  | finish (k : String) (op : Nat) (ok : Bool)
  | workerExit (k : String)
  | clearPromise (k : String)

/-- One atomic step.  `none` means the event is not enabled in `s`
(no such segment of the source code can run from that state). -/
def applyQEv (s : QState) (e : QEv) : Option QState :=
  match e with
  | QEv.enqueue k op =>
    if op ∈ s.used then none
    else some { s with
      pending := upd s.pending k (s.pending k ++ [op])
      promiseSt := upd s.promiseSt k
        (match s.promiseSt k with
         | PromiseSt.cleared => PromiseSt.looping
         | ps => ps)
      enqHist := upd s.enqHist k (s.enqHist k ++ [op])
      used := op :: s.used }
  | QEv.start k op =>
    match s.pending k with
    | [] => none
    | op' :: rest =>
      if op' = op ∧ s.promiseSt k = PromiseSt.looping ∧ s.running k = none then
        some { s with
          pending := upd s.pending k rest
          running := upd s.running k (some op) }
      else none
  | QEv.finish k op ok =>
    if s.running k = some op then
      some { s with
        running := upd s.running k none
        finHist := upd s.finHist k (s.finHist k ++ [op])
        delivered := fun o => if o = op then some ok else s.delivered o }
    else none
  | QEv.workerExit k =>
    if s.promiseSt k = PromiseSt.looping ∧ s.running k = none ∧ s.pending k = [] then
      some { s with promiseSt := upd s.promiseSt k PromiseSt.stale }
    else none
  | QEv.clearPromise k =>
    if s.promiseSt k = PromiseSt.stale then
      some { s with promiseSt := upd s.promiseSt k PromiseSt.cleared }
    else none

/-- Run a sequence of events from a state; `none` if any event is not
enabled. -/
def runQEvents (s : QState) : List QEv → Option QState
  | [] => some s
  | e :: es =>
    match applyQEv s e with
    | some s' => runQEvents s' es
    | none => none

/-- Ids enqueued for key `k` in a trace, in order. -/
def enqsOf (k : String) (tr : List QEv) : List Nat :=
  tr.filterMap fun e =>
    match e with
    | QEv.enqueue k' op => if k' = k then some op else none
    | _ => none

/-- The state invariant of the queue machinery.  For every key, the
enqueue history splits as finished ++ running ++ pending; a running
operation belongs to a worker whose loop is still active; enqueued ids
are recorded in `used` and are pairwise distinct.  (A non-empty pending
list does *not* imply an active worker: an operation enqueued while the
worker promise was stale is stranded.) -/
def QInv (s : QState) : Prop :=
  ∀ k : String,
    s.enqHist k = s.finHist k ++ (s.running k).toList ++ s.pending k ∧
    (s.running k ≠ none → s.promiseSt k = PromiseSt.looping) ∧
    (∀ o ∈ s.enqHist k, o ∈ s.used) ∧
    (s.enqHist k).Nodup

/-! ### The Bot's chat-id → thread-id map (bot.ts)

`Bot` keeps `threadIds : Record<string, string>`.  `getThreadId(chatId)`
returns the cached entry, or else awaits `llm.createThread()` and stores
the result.  `addMessage(chatId, message)` awaits `getThreadId` and then
appends the message to that thread.  `response(chatId, ...)` reads
`this.threadIds[chatId]` directly — possibly `undefined` — and passes it
to `llm.runAssistant` without touching the map.

Two embeddings are given.  `applyBotOp` is the sequential semantics: each
public operation runs from start to finish before the next one starts.
`stepThreadCall` below is the interleaved semantics of `getThreadId`
alone, whose `await this.llm.createThread()` is a suspension point. -/

structure BotState where
  /-- `threadIds[chatId]`. -/
  threadIds : String → Option String
  /-- Number of `llm.createThread()` calls performed so far. -/
  allocCount : Nat
  /-- Messages appended per thread id (through the LLM queue). -/
  conv : String → List String

/-- `llm.createThread()` returns a fresh remote thread id; freshness is
modeled by numbering the ids. -/
def freshThreadId (n : Nat) : String :=
  "thread-" ++ toString n

/-- Result of one sequential `Bot` operation. -/
inductive BotResult where
  | gotThread (threadId : String)
  | messageAdded (threadId : String)
  /-- `response` ran `llm.runAssistant(this.threadIds[chatId], ...)`; the
  payload is the thread handle it passed, `none` standing for the
  JavaScript `undefined` read from a missing map entry. -/
  | ranWith (threadId : Option String)
deriving DecidableEq

inductive BotOp where
  | getThread (chatId : String)
  | addMessage (chatId : String) (msg : String)
  | response (chatId : String)

/-- `Bot.getThreadId` run atomically (no interleaving between the check
and the store): cached entries are returned as is; otherwise a thread is
allocated, stored and returned. -/
def getThreadId (s : BotState) (chatId : String) : String × BotState :=
  match s.threadIds chatId with
  | some t => (t, s)
  | none =>
    let t := freshThreadId s.allocCount
    (t, { s with threadIds := upd s.threadIds chatId (some t),
                 allocCount := s.allocCount + 1 })

/-- Sequential semantics of the `Bot` operations that touch `threadIds`.
`addMessage` stringifies and appends through the queue (the JSON envelope
is abstracted away); `response` reads the map without writing it and
passes the possibly-missing handle straight to `runAssistant`. -/
def applyBotOp (s : BotState) (op : BotOp) : BotState × BotResult :=
  match op with
  | BotOp.getThread chatId =>
    let (t, s') := getThreadId s chatId
    (s', BotResult.gotThread t)
  | BotOp.addMessage chatId msg =>
    let (t, s') := getThreadId s chatId
    ({ s' with conv := upd s'.conv t (s'.conv t ++ [msg]) },
     BotResult.messageAdded t)
  | BotOp.response chatId =>
    (s, BotResult.ranWith (s.threadIds chatId))

/-- Sequential composition of `Bot` operations. -/
def applyBotOps (s : BotState) : List BotOp → BotState
  | [] => s
  | op :: ops => applyBotOps (applyBotOp s op).1 ops

/-! #### Interleaved `getThreadId`

`getThreadId` suspends at `await this.llm.createThread()`: the map
lookup is one atomic segment, the store-and-return after the allocation
another.  A call in flight is therefore in one of three phases. -/

inductive CallPhase where
  /-- Invoked, has not yet executed the `if` check. -/
  | started
  /-- Saw no cached entry and is awaiting `createThread()`. -/
  | allocating
  | done (result : String)
deriving DecidableEq

structure ThreadRace where
  st : BotState
  calls : List (String × CallPhase)

/-- Advance the interleaved `getThreadId` call at index `i` by one atomic
segment (scheduling a call that is already `done` changes nothing). -/
def stepThreadCall (r : ThreadRace) (i : Nat) : ThreadRace :=
  match r.calls.get? i with
  | none => r
  | some (chatId, phase) =>
    match phase with
    | CallPhase.started =>
      match r.st.threadIds chatId with
      | some t => { r with calls := r.calls.set i (chatId, CallPhase.done t) }
      | none => { r with calls := r.calls.set i (chatId, CallPhase.allocating) }
    | CallPhase.allocating =>
      let t := freshThreadId r.st.allocCount
      { st := { r.st with
                  threadIds := upd r.st.threadIds chatId (some t),
                  allocCount := r.st.allocCount + 1 },
        calls := r.calls.set i (chatId, CallPhase.done t) }
    | CallPhase.done _ => r

/-- Run a scheduler choice sequence over the in-flight calls. -/
def runThreadRace (r : ThreadRace) : List Nat → ThreadRace
  | [] => r
  | i :: is => runThreadRace (stepThreadCall r i) is

/-! ### DiscordInterface: DM activation and channel subscriptions
(discord_interface.ts)

`activateDMChannel(channelId)` (lines 373–387): if the channel id is in
`activeDMChannels`, return; otherwise fetch the channel's recent messages
(Discord returns them newest first), replay `messages.reverse()` in
order into the bot thread, then push the channel id.

The `/subscribe` handler (lines 118–131) upserts the channel row and then
does `this.subscriberChannels.push(channelId)` — unconditionally.  The
`/unsubscribe` handler filters out every occurrence.
`broadcastBrainteaserOfTheDay` (lines 295–316) sends the text once per
element of `subscriberChannels`. -/

/-- A fetched Discord message: its rendered content and its creation
time (later messages have larger timestamps). -/
structure DMsg where
  content : String
  ts : Nat
deriving DecidableEq

structure DiscordState where
  /-- `activeDMChannels`. -/
  activeDMChannels : List String
  /-- What has been replayed into each channel's bot conversation via
  `addMessageToBotThread`, in order. -/
  replayed : String → List DMsg

/-- `activateDMChannel` (discord_interface.ts lines 373–387): `fetched`
is what `getLastMessages` returned (newest first; that helper catches
its own errors and returns `[]`, so it never throws).  The replay loop
awaits `addMessageToBotThread` for each message of `messages.reverse()`,
and such an append can reject (it performs network calls through the
bot).  `failAt = some j`, with `j` an index into the reversed
(oldest-first) list, means the append of the `j`-th replayed message
rejects: the surrounding `catch` only logs, so the `j` messages before
the failure stay appended and the `push(channelId)` of line 382 is
skipped — the channel stays unactivated.  `failAt = none`, or an index
past the end, is the success path: full replay, then the push. -/
def activateDMChannel (s : DiscordState) (channelId : String)
    (fetched : List DMsg) (failAt : Option Nat) : DiscordState :=
  if channelId ∈ s.activeDMChannels then s
  else
    match failAt with
    | some j =>
      if j < fetched.reverse.length then
        { activeDMChannels := s.activeDMChannels,
          replayed := upd s.replayed channelId
            (s.replayed channelId ++ fetched.reverse.take j) }
      else
        { activeDMChannels := s.activeDMChannels ++ [channelId],
          replayed := upd s.replayed channelId
            (s.replayed channelId ++ fetched.reverse) }
    | none =>
      { activeDMChannels := s.activeDMChannels ++ [channelId],
        replayed := upd s.replayed channelId
          (s.replayed channelId ++ fetched.reverse) }

/-- The `/subscribe` handler's mutation (after a successful upsert):
`this.subscriberChannels.push(channelId)`. -/
def subscribeChannel (subs : List String) (channelId : String) : List String :=
  subs ++ [channelId]

/-- The `/unsubscribe` handler's mutation:
`subscriberChannels.filter(id => id !== channelId)`. -/
def unsubscribeChannel (subs : List String) (channelId : String) : List String :=
  subs.filter (fun c => c ≠ channelId)

/-- `broadcastBrainteaserOfTheDay` sends the selected text to
`subscriberChannels.map(...)`: one delivery per list element. -/
def broadcastDeliveries (subs : List String) (botd : String) :
    List (String × String) :=
  subs.map (fun channelId => (channelId, botd))

theorem upd_same {α : Type} (f : String → α) (k : String) (v : α) :
    upd f k v k = v := by
  simp [upd]

theorem upd_other {α : Type} (f : String → α) (k k' : String) (v : α)
    (h : k' ≠ k) : upd f k v k' = f k' := by
  simp [upd, h]

theorem initQ_inv : QInv initQ := by
  intro k
  simp [initQ]

theorem applyQEv_inv (s s' : QState) (e : QEv) (hinv : QInv s)
    (h : applyQEv s e = some s') : QInv s' := by
  cases e with
  | enqueue k op =>
    simp only [applyQEv] at h
    by_cases hop : op ∈ s.used
    · simp [hop] at h
    · rw [if_neg hop] at h
      injection h with h
      subst h
      intro k'
      obtain ⟨he, hr, hm, hn⟩ := hinv k'
      by_cases hk : k' = k
      · subst hk
        refine ⟨?_, ?_, ?_, ?_⟩
        · simp only [upd_same, he, List.append_assoc]
        · intro hne
          simp only [upd_same]
          rw [hr hne]
        · intro o ho
          simp only [upd_same, List.mem_append, List.mem_singleton] at ho
          rcases ho with ho | ho
          · exact List.mem_cons_of_mem _ (hm o ho)
          · subst ho; exact List.mem_cons_self _ _
        · simp only [upd_same]
          have hnot : op ∉ s.enqHist k' := fun hc => hop (hm op hc)
          exact ((List.perm_append_singleton op _).nodup_iff).mpr
            (List.nodup_cons.mpr ⟨hnot, hn⟩)
      · refine ⟨?_, ?_, ?_, ?_⟩
        · simp only [upd_other _ _ _ _ hk]; exact he
        · intro hne; simp only [upd_other _ _ _ _ hk]; exact hr hne
        · intro o ho
          simp only [upd_other _ _ _ _ hk] at ho
          exact List.mem_cons_of_mem _ (hm o ho)
        · simp only [upd_other _ _ _ _ hk]; exact hn
  | start k op =>
    simp only [applyQEv] at h
    cases hpk : s.pending k with
    | nil => rw [hpk] at h; exact absurd h (by simp)
    | cons op' rest =>
      rw [hpk] at h
      dsimp only at h
      by_cases hcond : op' = op ∧ s.promiseSt k = PromiseSt.looping ∧ s.running k = none
      · rw [if_pos hcond] at h
        obtain ⟨hop', hloop, hrun⟩ := hcond
        subst hop'
        injection h with h
        subst h
        intro k'
        obtain ⟨he, hr, hm, hn⟩ := hinv k'
        by_cases hk : k' = k
        · subst hk
          refine ⟨?_, ?_, ?_, ?_⟩
          · simp only [upd_same, he, hpk, hrun, Option.toList]
            simp
          · intro _; exact hloop
          · exact hm
          · exact hn
        · refine ⟨?_, ?_, ?_, ?_⟩
          · simp only [upd_other _ _ _ _ hk]; exact he
          · intro hne; simp only [upd_other _ _ _ _ hk] at hne; exact hr hne
          · exact hm
          · exact hn
      · rw [if_neg hcond] at h; exact absurd h (by simp)
  | finish k op ok =>
    simp only [applyQEv] at h
    by_cases hrun : s.running k = some op
    · rw [if_pos hrun] at h
      injection h with h
      subst h
      intro k'
      obtain ⟨he, hr, hm, hn⟩ := hinv k'
      by_cases hk : k' = k
      · subst hk
        refine ⟨?_, ?_, ?_, ?_⟩
        · simp only [upd_same, he, hrun, Option.toList]
          simp
        · intro hne; simp only [upd_same] at hne; exact absurd rfl hne
        · exact hm
        · exact hn
      · refine ⟨?_, ?_, ?_, ?_⟩
        · simp only [upd_other _ _ _ _ hk]; exact he
        · intro hne; simp only [upd_other _ _ _ _ hk] at hne; exact hr hne
        · exact hm
        · exact hn
    · rw [if_neg hrun] at h; exact absurd h (by simp)
  | workerExit k =>
    simp only [applyQEv] at h
    by_cases hcond : s.promiseSt k = PromiseSt.looping ∧ s.running k = none ∧ s.pending k = []
    · rw [if_pos hcond] at h
      obtain ⟨hloop, hrun, hpend⟩ := hcond
      injection h with h
      subst h
      intro k'
      obtain ⟨he, hr, hm, hn⟩ := hinv k'
      by_cases hk : k' = k
      · subst hk
        refine ⟨he, ?_, hm, hn⟩
        intro hne; exact absurd hrun hne
      · refine ⟨he, ?_, hm, hn⟩
        intro hne; simp only [upd_other _ _ _ _ hk]; exact hr hne
    · rw [if_neg hcond] at h; exact absurd h (by simp)
  | clearPromise k =>
    simp only [applyQEv] at h
    by_cases hcond : s.promiseSt k = PromiseSt.stale
    · rw [if_pos hcond] at h
      injection h with h
      subst h
      intro k'
      obtain ⟨he, hr, hm, hn⟩ := hinv k'
      by_cases hk : k' = k
      · subst hk
        refine ⟨he, ?_, hm, hn⟩
        intro hne
        exact absurd (hcond ▸ hr hne) (by simp)
      · refine ⟨he, ?_, hm, hn⟩
        intro hne; simp only [upd_other _ _ _ _ hk]; exact hr hne
    · rw [if_neg hcond] at h; exact absurd h (by simp)

theorem runQEvents_cons (s s1 s2 : QState) (e : QEv) (es : List QEv)
    (h1 : applyQEv s e = some s1) (h2 : runQEvents s1 es = some s2) :
    runQEvents s (e :: es) = some s2 := by
  simp [runQEvents, h1, h2]

theorem runQEvents_inv (tr : List QEv) : ∀ s s' : QState, QInv s →
    runQEvents s tr = some s' → QInv s' := by
  induction tr with
  | nil =>
    intro s s' hinv h
    simp only [runQEvents] at h
    injection h with h
    subst h
    exact hinv
  | cons e es ih =>
    intro s s' hinv h
    simp only [runQEvents] at h
    cases hap : applyQEv s e with
    | none => rw [hap] at h; exact absurd h (by simp)
    | some s1 =>
      rw [hap] at h
      exact ih s1 s' (applyQEv_inv s s1 e hinv hap) h

theorem runQEvents_append (tr1 : List QEv) : ∀ (tr2 : List QEv) (s s' : QState),
    runQEvents s (tr1 ++ tr2) = some s' →
    ∃ s1, runQEvents s tr1 = some s1 ∧ runQEvents s1 tr2 = some s' := by
  induction tr1 with
  | nil =>
    intro tr2 s s' h
    exact ⟨s, rfl, h⟩
  | cons e es ih =>
    intro tr2 s s' h
    simp only [List.cons_append, runQEvents] at h ⊢
    cases hap : applyQEv s e with
    | none => rw [hap] at h; exact absurd h (by simp)
    | some s1 =>
      rw [hap] at h
      dsimp only at h ⊢
      exact ih tr2 s1 s' h

theorem enqsOf_cons (k : String) (e : QEv) (es : List QEv) :
    enqsOf k (e :: es) = enqsOf k [e] ++ enqsOf k es := by
  simp only [enqsOf, List.filterMap_cons]
  cases e with
  | enqueue k' op =>
    by_cases h : k' = k <;> simp [h]
  | start k' op => simp
  | finish k' op ok => simp
  | workerExit k' => simp
  | clearPromise k' => simp

/-- Per-event effects on the history fields: an event appends its own
enqueues to `enqHist`, and an id can only enter `finHist` through a
`finish` event. -/
theorem applyQEv_effects (s s1 : QState) (e : QEv)
    (hap : applyQEv s e = some s1) :
    (∀ k, s1.enqHist k = s.enqHist k ++ enqsOf k [e]) ∧
    (∀ k o, o ∈ s1.finHist k → o ∈ s.finHist k ∨ ∃ ok, e = QEv.finish k o ok) := by
  cases e with
  | enqueue k' op =>
    simp only [applyQEv] at hap
    by_cases hop : op ∈ s.used
    · simp [hop] at hap
    · rw [if_neg hop] at hap
      injection hap with hap
      subst hap
      refine ⟨?_, fun k o ho => Or.inl ho⟩
      intro k
      by_cases hk : k = k'
      · subst hk; simp [upd_same, enqsOf]
      · have hk' : ¬ (k' = k) := fun hc => hk hc.symm
        simp [upd_other _ _ _ _ (fun hc => hk hc), enqsOf, hk']
  | start k' op =>
    simp only [applyQEv] at hap
    cases hpk : s.pending k' with
    | nil => rw [hpk] at hap; exact absurd hap (by simp)
    | cons op' rest =>
      rw [hpk] at hap
      dsimp only at hap
      by_cases hcond : op' = op ∧ s.promiseSt k' = PromiseSt.looping ∧
          s.running k' = none
      · rw [if_pos hcond] at hap
        injection hap with hap
        subst hap
        exact ⟨fun k => by simp [enqsOf], fun k o ho => Or.inl ho⟩
      · rw [if_neg hcond] at hap; exact absurd hap (by simp)
  | finish k' op ok =>
    simp only [applyQEv] at hap
    by_cases hrun : s.running k' = some op
    · rw [if_pos hrun] at hap
      injection hap with hap
      subst hap
      refine ⟨fun k => by simp [enqsOf], ?_⟩
      intro k o ho
      by_cases hk : k = k'
      · subst hk
        simp only [upd_same, List.mem_append, List.mem_singleton] at ho
        rcases ho with ho | ho
        · exact Or.inl ho
        · subst ho; exact Or.inr ⟨ok, rfl⟩
      · simp only [upd_other _ _ _ _ (fun hc => hk hc)] at ho
        exact Or.inl ho
    · rw [if_neg hrun] at hap; exact absurd hap (by simp)
  | workerExit k' =>
    simp only [applyQEv] at hap
    by_cases hcond : s.promiseSt k' = PromiseSt.looping ∧ s.running k' = none ∧
        s.pending k' = []
    · rw [if_pos hcond] at hap
      injection hap with hap
      subst hap
      exact ⟨fun k => by simp [enqsOf], fun k o ho => Or.inl ho⟩
    · rw [if_neg hcond] at hap; exact absurd hap (by simp)
  | clearPromise k' =>
    simp only [applyQEv] at hap
    by_cases hcond : s.promiseSt k' = PromiseSt.stale
    · rw [if_pos hcond] at hap
      injection hap with hap
      subst hap
      exact ⟨fun k => by simp [enqsOf], fun k o ho => Or.inl ho⟩
    · rw [if_neg hcond] at hap; exact absurd hap (by simp)

/-- The enqueue history of a key is exactly the ids of the key's enqueue
events of the trace, in trace order. -/
theorem enqHist_eq_enqsOf (tr : List QEv) : ∀ (s s' : QState) (k : String),
    runQEvents s tr = some s' → s'.enqHist k = s.enqHist k ++ enqsOf k tr := by
  induction tr with
  | nil =>
    intro s s' k h
    simp only [runQEvents] at h
    injection h with h
    subst h
    simp [enqsOf]
  | cons e es ih =>
    intro s s' k h
    simp only [runQEvents] at h
    cases hap : applyQEv s e with
    | none => rw [hap] at h; exact absurd h (by simp)
    | some s1 =>
      rw [hap] at h
      have hih := ih s1 s' k h
      have h1 : s1.enqHist k = s.enqHist k ++ enqsOf k [e] :=
        (applyQEv_effects s s1 e hap).1 k
      rw [hih, h1, enqsOf_cons k e es, ← List.append_assoc]

/-- An id in the finish history got there through a `finish` event of the
trace. -/
theorem finHist_mem_finish (tr : List QEv) : ∀ (s s' : QState) (k : String) (o : Nat),
    runQEvents s tr = some s' → o ∈ s'.finHist k →
    o ∈ s.finHist k ∨ ∃ ok, QEv.finish k o ok ∈ tr := by
  induction tr with
  | nil =>
    intro s s' k o h hmem
    simp only [runQEvents] at h
    injection h with h
    subst h
    exact Or.inl hmem
  | cons e es ih =>
    intro s s' k o h hmem
    simp only [runQEvents] at h
    cases hap : applyQEv s e with
    | none => rw [hap] at h; exact absurd h (by simp)
    | some s1 =>
      rw [hap] at h
      rcases ih s1 s' k o h hmem with h1 | ⟨ok, hok⟩
      · rcases (applyQEv_effects s s1 e hap).2 k o h1 with h2 | ⟨ok, he⟩
        · exact Or.inl h2
        · subst he
          exact Or.inr ⟨ok, List.mem_cons_self _ _⟩
      · exact Or.inr ⟨ok, List.mem_cons_of_mem _ hok⟩

/-- In a duplicate-free list of the form `F ++ o2 :: R`, any element
occurring strictly before `o2` lies in `F`. -/
theorem nodup_split_mem_left :
    ∀ (u1 F : List Nat) (o1 o2 : Nat) (u2 u3 R : List Nat),
      (F ++ o2 :: R).Nodup → F ++ o2 :: R = u1 ++ o1 :: u2 ++ o2 :: u3 →
      o1 ∈ F := by
  intro u1
  induction u1 with
  | nil =>
    intro F o1 o2 u2 u3 R hnd heq
    cases F with
    | nil =>
      simp only [List.nil_append] at heq
      injection heq with h1 h2
      subst h1
      have : o2 ∈ R := by
        subst h2
        simp
      have hno : o2 ∉ R := (List.nodup_cons.mp hnd).1
      exact absurd this hno
    | cons f F' =>
      simp only [List.cons_append, List.nil_append] at heq
      injection heq with h1 _
      subst h1
      exact List.mem_cons_self _ _
  | cons a u1' ih =>
    intro F o1 o2 u2 u3 R hnd heq
    cases F with
    | nil =>
      simp only [List.nil_append, List.cons_append] at heq
      injection heq with h1 h2
      subst h1
      have : o2 ∈ R := by
        subst h2
        simp
      have hno : o2 ∉ R := (List.nodup_cons.mp hnd).1
      exact absurd this hno
    | cons f F' =>
      simp only [List.cons_append] at heq
      injection heq with h1 h2
      have hnd' : (F' ++ o2 :: R).Nodup := (List.nodup_cons.mp hnd).2
      exact List.mem_cons_of_mem _ (ih F' o1 o2 u2 u3 R hnd' h2)

/-- Draining the queue of key `k` down to operation `op`: from any state
satisfying the invariant in which the worker loop of `k` is active and
between operations, the worker can keep shifting and awaiting operations
until `op` itself has been executed and its caller's promise settled. -/
theorem queue_drain :
    ∀ (l1 : List Nat) (s : QState) (k : String) (op : Nat) (l2 : List Nat),
      QInv s → s.promiseSt k = PromiseSt.looping → s.running k = none →
      s.pending k = l1 ++ op :: l2 →
      ∃ (es : List QEv) (s' : QState),
        runQEvents s es = some s' ∧ s'.delivered op = some true := by
  intro l1
  induction l1 with
  | nil =>
    intro s k op l2 hinv hloop hrun hpend
    simp only [List.nil_append] at hpend
    have h1 : applyQEv s (QEv.start k op) =
        some { s with pending := upd s.pending k l2,
                      running := upd s.running k (some op) } := by
      simp [applyQEv, hpend, hloop, hrun]
    have h2 : applyQEv
        { s with pending := upd s.pending k l2,
                 running := upd s.running k (some op) }
        (QEv.finish k op true) =
        some { s with pending := upd s.pending k l2,
                      running := upd (upd s.running k (some op)) k none,
                      finHist := upd s.finHist k (s.finHist k ++ [op]),
                      delivered := fun o => if o = op then some true else s.delivered o } := by
      simp [applyQEv, upd_same]
    refine ⟨[QEv.start k op, QEv.finish k op true], _,
      runQEvents_cons _ _ _ _ _ h1 (runQEvents_cons _ _ _ _ _ h2 rfl), ?_⟩
    simp
  | cons a l1' ih =>
    intro s k op l2 hinv hloop hrun hpend
    have h1 : applyQEv s (QEv.start k a) =
        some { s with pending := upd s.pending k (l1' ++ op :: l2),
                      running := upd s.running k (some a) } := by
      simp [applyQEv, hpend, hloop, hrun]
    set s1 : QState :=
      { s with pending := upd s.pending k (l1' ++ op :: l2),
               running := upd s.running k (some a) } with hs1
    have h2 : applyQEv s1 (QEv.finish k a true) =
        some { s1 with running := upd s1.running k none,
                       finHist := upd s1.finHist k (s1.finHist k ++ [a]),
                       delivered := fun o => if o = a then some true else s1.delivered o } := by
      simp [applyQEv, hs1, upd_same]
    set s2 : QState :=
      { s1 with running := upd s1.running k none,
                finHist := upd s1.finHist k (s1.finHist k ++ [a]),
                delivered := fun o => if o = a then some true else s1.delivered o } with hs2
    have hinv1 : QInv s1 := applyQEv_inv s s1 _ hinv h1
    have hinv2 : QInv s2 := applyQEv_inv s1 s2 _ hinv1 h2
    have hloop2 : s2.promiseSt k = PromiseSt.looping := by simp [hs2, hs1, hloop]
    have hrun2 : s2.running k = none := by simp [hs2, upd_same]
    have hpend2 : s2.pending k = l1' ++ op :: l2 := by simp [hs2, hs1, upd_same]
    obtain ⟨es, s', hes, hdel⟩ := ih s2 k op l2 hinv2 hloop2 hrun2 hpend2
    exact ⟨QEv.start k a :: QEv.finish k a true :: es, s',
      runQEvents_cons _ _ _ _ _ h1 (runQEvents_cons _ _ _ _ _ h2 hes), hdel⟩

/-- C1: operations submitted through the serialized queue
(`LLM.enqueueOperation`) never execute concurrently for the same key and
run in submission order: in every execution, when an operation `o2`
starts, every operation `o1` that was enqueued for the same key before
`o2` has already finished (its `finish` event — success or failure — is
in the earlier trace); and operations enqueued under different keys may
overlap (a concrete execution has operations of keys `a` and `b` in
flight simultaneously, and both complete). -/
theorem serializedQueue_fifo_per_key :
    (∀ (tr t2 : List QEv) (k : String) (o1 o2 : Nat) (u1 u2 u3 : List Nat)
      (s' : QState),
      runQEvents initQ (tr ++ QEv.start k o2 :: t2) = some s' →
      enqsOf k tr = u1 ++ o1 :: u2 ++ o2 :: u3 →
      ∃ ok, QEv.finish k o1 ok ∈ tr) ∧
    (Option.map (fun s => (s.running "a", s.running "b"))
      (runQEvents initQ
        [QEv.enqueue "a" 0, QEv.start "a" 0,
         QEv.enqueue "b" 1, QEv.start "b" 1]) = some (some 0, some 1)) ∧
    ((runQEvents initQ
        [QEv.enqueue "a" 0, QEv.start "a" 0,
         QEv.enqueue "b" 1, QEv.start "b" 1,
         QEv.finish "a" 0 true, QEv.finish "b" 1 true]).isSome = true) := by
  refine ⟨?_, by decide, by decide⟩
  intro tr t2 k o1 o2 u1 u2 u3 s' hrun hsplit
  obtain ⟨s1, h1, h2⟩ := runQEvents_append tr _ initQ s' hrun
  have hinv1 : QInv s1 := runQEvents_inv tr initQ s1 initQ_inv h1
  simp only [runQEvents] at h2
  cases hap : applyQEv s1 (QEv.start k o2) with
  | none => rw [hap] at h2; exact absurd h2 (by simp)
  | some s2 =>
    rw [hap] at h2
    simp only [applyQEv] at hap
    cases hpk : s1.pending k with
    | nil => rw [hpk] at hap; exact absurd hap (by simp)
    | cons op' rest =>
      rw [hpk] at hap
      dsimp only at hap
      by_cases hcond : op' = o2 ∧ s1.promiseSt k = PromiseSt.looping ∧
          s1.running k = none
      · obtain ⟨hop', hloop, hrunn⟩ := hcond
        subst hop'
        obtain ⟨he, _, _, hn⟩ := hinv1 k
        have he2 : s1.enqHist k = s1.finHist k ++ op' :: rest := by
          rw [he, hrunn, hpk]
          simp
        have henq : s1.enqHist k = enqsOf k tr := by
          have := enqHist_eq_enqsOf tr initQ s1 k h1
          simpa [initQ] using this
        have hsplit2 : s1.finHist k ++ op' :: rest = u1 ++ o1 :: u2 ++ op' :: u3 := by
          rw [← he2, henq, hsplit]
        have hnd : (s1.finHist k ++ op' :: rest).Nodup := by
          rw [← he2]; exact hn
        have hmem : o1 ∈ s1.finHist k :=
          nodup_split_mem_left u1 _ o1 op' u2 u3 rest hnd hsplit2
        rcases finHist_mem_finish tr initQ s1 k o1 h1 hmem with hin | hfin
        · simp [initQ] at hin
        · exact hfin
      · rw [if_neg hcond] at hap; exact absurd hap (by simp)

/-- Witness for C1 at a concrete execution: on key `a`, operation 0 is
enqueued before operation 1, operation 1 starts after operation 0 ran,
and indeed a `finish` of operation 0 occurs in the trace before that
start. -/
theorem serializedQueue_fifo_per_key_witness :
    ∃ ok, QEv.finish "a" 0 ok ∈
      [QEv.enqueue "a" 0, QEv.enqueue "a" 1, QEv.start "a" 0,
       QEv.finish "a" 0 true] := by
  have hsome : (runQEvents initQ
      ([QEv.enqueue "a" 0, QEv.enqueue "a" 1, QEv.start "a" 0,
        QEv.finish "a" 0 true] ++ QEv.start "a" 1 :: [])).isSome = true := by
    decide
  obtain ⟨s', hs'⟩ := Option.isSome_iff_exists.mp hsome
  exact serializedQueue_fifo_per_key.1
    [QEv.enqueue "a" 0, QEv.enqueue "a" 1, QEv.start "a" 0,
     QEv.finish "a" 0 true] [] "a" 0 1 [] [] [] s' hs' (by decide)

/-- C4 counterexample: the claim "every subsequently enqueued operation
for the same key still executes" fails in the stale-promise window of
`processQueue` (llm.ts lines 43–46).  Operation 0 is enqueued, runs and
fails; the worker's loop exits on the empty list (its promise resolves)
and operation 1 is enqueued before line 46 clears
`processingPromise["a"]`: the enqueue sees the stale non-null promise and
starts no worker.  After the clear, operation 1 is pending with no
worker (`PromiseSt.cleared`, nothing running), its caller promise is
unsettled, and its `start` event is disabled — it cannot execute until
some later enqueue for the key starts a new worker. -/
theorem serializedQueue_stranding_counterexample :
    Option.map
      (fun s => (s.pending "a", s.promiseSt "a", s.running "a"))
      (runQEvents initQ
        [QEv.enqueue "a" 0, QEv.start "a" 0, QEv.finish "a" 0 false,
         QEv.workerExit "a", QEv.enqueue "a" 1, QEv.clearPromise "a"]) =
      some ([1], PromiseSt.cleared, none) ∧
    Option.map
      (fun s => (s.delivered 0, s.delivered 1,
        (applyQEv s (QEv.start "a" 1)).isSome))
      (runQEvents initQ
        [QEv.enqueue "a" 0, QEv.start "a" 0, QEv.finish "a" 0 false,
         QEv.workerExit "a", QEv.enqueue "a" 1, QEv.clearPromise "a"]) =
      some (some false, none, false) := by
  exact ⟨by decide, by decide⟩

/-- C4 (amended): a failing operation does not poison the queue, but
progress is only guaranteed while the worker loop is active.  (1) When
the running operation of key `k` settles as a failure, the rejection is
delivered only to that operation's caller promise, the worker's loop is
still active and the pending list is untouched.  (2) While the worker
loop is active, every operation in the key's pending list is still
driven to execution and settlement.  (3) Without an active loop
(a stale or cleared worker promise) no operation of the key can start:
an operation enqueued in the stale-promise window is stranded.  (4) A
later enqueue for the key, once the promise is cleared, starts a new
worker and the stranded operation then executes (before the new one,
preserving FIFO). -/
theorem serializedQueue_failure_isolated :
    (∀ (s s' : QState) (k : String) (op : Nat),
      QInv s → applyQEv s (QEv.finish k op false) = some s' →
      s'.delivered op = some false ∧
      (∀ o, o ≠ op → s'.delivered o = s.delivered o) ∧
      s'.promiseSt k = PromiseSt.looping ∧
      s'.pending k = s.pending k) ∧
    (∀ (s : QState) (k : String) (l1 : List Nat) (op : Nat) (l2 : List Nat),
      QInv s → s.promiseSt k = PromiseSt.looping →
      s.pending k = l1 ++ op :: l2 →
      ∃ (es : List QEv) (s' : QState),
        runQEvents s es = some s' ∧ ∃ b, s'.delivered op = some b) ∧
    (∀ (s : QState) (k : String) (op : Nat),
      s.promiseSt k ≠ PromiseSt.looping →
      applyQEv s (QEv.start k op) = none) ∧
    (∀ (s : QState) (k : String) (l1 : List Nat) (op : Nat) (l2 : List Nat)
      (op' : Nat),
      QInv s → s.promiseSt k = PromiseSt.cleared →
      s.pending k = l1 ++ op :: l2 → op' ∉ s.used →
      ∃ (es : List QEv) (s' : QState),
        runQEvents s (QEv.enqueue k op' :: es) = some s' ∧
        ∃ b, s'.delivered op = some b) := by
  refine ⟨?_, ?_, ?_, ?_⟩
  · intro s s' k op hinv h
    simp only [applyQEv] at h
    by_cases hrun : s.running k = some op
    · rw [if_pos hrun] at h
      injection h with h
      subst h
      refine ⟨by simp, ?_, ?_, rfl⟩
      · intro o ho
        simp [ho]
      · exact (hinv k).2.1 (by rw [hrun]; simp)
    · rw [if_neg hrun] at h; exact absurd h (by simp)
  · intro s k l1 op l2 hinv hloop hpend
    cases hrun : s.running k with
    | none =>
      obtain ⟨es, s', hes, hdel⟩ := queue_drain l1 s k op l2 hinv hloop hrun hpend
      exact ⟨es, s', hes, true, hdel⟩
    | some o =>
      have h0 : applyQEv s (QEv.finish k o true) =
          some { s with running := upd s.running k none,
                        finHist := upd s.finHist k (s.finHist k ++ [o]),
                        delivered := fun o' => if o' = o then some true else s.delivered o' } := by
        simp [applyQEv, hrun]
      set s1 : QState :=
        { s with running := upd s.running k none,
                 finHist := upd s.finHist k (s.finHist k ++ [o]),
                 delivered := fun o' => if o' = o then some true else s.delivered o' } with hs1
      have hinv1 : QInv s1 := applyQEv_inv s s1 _ hinv h0
      have hloop1 : s1.promiseSt k = PromiseSt.looping := by simp [hs1, hloop]
      have hrun1 : s1.running k = none := by simp [hs1, upd_same]
      have hpend1 : s1.pending k = l1 ++ op :: l2 := by simp [hs1, hpend]
      obtain ⟨es, s', hes, hdel⟩ := queue_drain l1 s1 k op l2 hinv1 hloop1 hrun1 hpend1
      exact ⟨QEv.finish k o true :: es, s',
        runQEvents_cons _ _ _ _ _ h0 hes, true, hdel⟩
  · intro s k op hnl
    simp only [applyQEv]
    cases hpk : s.pending k with
    | nil => rfl
    | cons op2 rest =>
      dsimp only
      rw [if_neg]
      intro hc
      exact hnl hc.2.1
  · intro s k l1 op l2 op' hinv hclear hpend hfresh
    have hrun : s.running k = none := by
      cases hr : s.running k with
      | none => rfl
      | some o =>
        have hl := (hinv k).2.1 (by rw [hr]; simp)
        rw [hclear] at hl
        exact absurd hl (by simp)
    have h0 : applyQEv s (QEv.enqueue k op') =
        some { s with
          pending := upd s.pending k (s.pending k ++ [op'])
          promiseSt := upd s.promiseSt k PromiseSt.looping
          enqHist := upd s.enqHist k (s.enqHist k ++ [op'])
          used := op' :: s.used } := by
      simp [applyQEv, hfresh, hclear]
    set s1 : QState :=
      { s with
        pending := upd s.pending k (s.pending k ++ [op'])
        promiseSt := upd s.promiseSt k PromiseSt.looping
        enqHist := upd s.enqHist k (s.enqHist k ++ [op'])
        used := op' :: s.used } with hs1
    have hinv1 : QInv s1 := applyQEv_inv s s1 _ hinv h0
    have hloop1 : s1.promiseSt k = PromiseSt.looping := by simp [hs1, upd_same]
    have hrun1 : s1.running k = none := by simp [hs1, hrun]
    have hpend1 : s1.pending k = l1 ++ op :: (l2 ++ [op']) := by
      simp [hs1, upd_same, hpend]
    obtain ⟨es, s', hes, hdel⟩ :=
      queue_drain l1 s1 k op (l2 ++ [op']) hinv1 hloop1 hrun1 hpend1
    exact ⟨es, s', runQEvents_cons _ _ _ _ _ h0 hes, true, hdel⟩

/-- Witness for the amended C4 at a concrete state: key `a` has an
active worker loop between operations with operation 5 pending; the
queue drives operation 5 to settlement. -/
theorem serializedQueue_failure_isolated_witness :
    ∃ (es : List QEv) (s' : QState),
      runQEvents
        { pending := upd (fun _ => []) "a" [5],
          promiseSt := upd (fun _ => PromiseSt.cleared) "a" PromiseSt.looping,
          running := fun _ => none,
          enqHist := upd (fun _ => []) "a" [5],
          finHist := fun _ => [],
          delivered := fun _ => none,
          used := [5] } es = some s' ∧ ∃ b, s'.delivered 5 = some b := by
  apply serializedQueue_failure_isolated.2.1 _ "a" [] 5 []
  · intro k
    by_cases hk : k = "a"
    · subst hk
      refine ⟨by simp [upd_same], ?_, ?_, by simp [upd_same]⟩
      · intro h; exact absurd rfl h
      · intro o ho
        simp only [upd_same, List.mem_singleton] at ho
        simp [ho]
    · refine ⟨by simp [upd_other _ _ _ _ hk], ?_, ?_, by simp [upd_other _ _ _ _ hk]⟩
      · intro h; exact absurd rfl h
      · intro o ho
        simp [upd_other _ _ _ _ hk] at ho
  · simp [upd_same]
  · simp [upd_same]

/-- C2: a `requires_action` cycle with `k` requested tool calls resumes
the run with exactly `k` outputs in one batch — the i-th output carries
the i-th call's id — all collected before resubmission (the whole list
`collectToolOutputs …` is what the single `submitToolOutputs` event
carries); an unregistered tool or a raising handler yields an output
whose content is the human-readable error string embedding the tool name
and the error, and no exception leaves the batch (`collectToolOutputs`
is a total function into outputs, not into errors). -/
theorem runDriver_toolOutput_batch :
    ∀ (tools : Tools) (jsonParse : String → Except String String)
      (calls : List ToolCall),
      (collectToolOutputs tools jsonParse calls).length = calls.length ∧
      (∀ i : Nat,
        ((collectToolOutputs tools jsonParse calls).get? i).map
            ToolOutput.tool_call_id = (calls.get? i).map ToolCall.id) ∧
      (∀ latest rest log,
        runAssistantLoop tools jsonParse latest
            (SvcStep.requiresAction calls true :: rest) log =
          runAssistantLoop tools jsonParse latest rest
            (log ++ calls.map (fun tc => RunEv.invoked tc.name tc.id) ++
              [RunEv.submitted (collectToolOutputs tools jsonParse calls)])) ∧
      (∀ tc ∈ calls, tools tc.name = none →
        ∃ e, callTool tools jsonParse tc =
          ⟨tc.id, toolErrorMessage tc.name e⟩) ∧
      (∀ tc ∈ calls, ∀ f args e, tools tc.name = some f →
        jsonParse tc.args = Except.ok args → f args = Except.error e →
        callTool tools jsonParse tc = ⟨tc.id, toolErrorMessage tc.name e⟩) := by
  intro tools jsonParse calls
  have hid : ∀ tc : ToolCall,
      (callTool tools jsonParse tc).tool_call_id = tc.id := by
    intro tc
    cases hp : jsonParse tc.args with
    | error e => simp [callTool, hp]
    | ok args =>
      cases ht : tools tc.name with
      | none => simp [callTool, hp, ht]
      | some f =>
        cases hf : f args with
        | ok out => simp [callTool, hp, ht, hf]
        | error e => simp [callTool, hp, ht, hf]
  refine ⟨by simp [collectToolOutputs], ?_, ?_, ?_, ?_⟩
  · intro i
    rw [collectToolOutputs, List.get?_map]
    cases h : calls.get? i with
    | none => rfl
    | some tc => simp [hid tc]
  · intro latest rest log
    simp [runAssistantLoop]
  · intro tc _ ht
    cases hp : jsonParse tc.args with
    | error e => exact ⟨e, by simp [callTool, hp]⟩
    | ok args => exact ⟨undefinedToolError, by simp [callTool, hp, ht]⟩
  · intro tc _ f args e ht hp hf
    simp [callTool, hp, ht, hf]

/-- Witness for C2 at a concrete batch: one requested call of the
unregistered tool `lookupSolutions` still yields exactly one output,
carrying the call id and an error string embedding the tool name. -/
theorem runDriver_toolOutput_batch_witness :
    (collectToolOutputs (fun _ => none) (fun s => Except.ok s)
        [⟨"call_1", "lookupSolutions", "{}"⟩]).length = 1 ∧
    ∃ e, callTool (fun _ => none) (fun s => Except.ok s)
        ⟨"call_1", "lookupSolutions", "{}"⟩ =
      ⟨"call_1", toolErrorMessage "lookupSolutions" e⟩ := by
  obtain ⟨h1, _, _, h4, _⟩ :=
    runDriver_toolOutput_batch (fun _ => none) (fun s => Except.ok s)
      [⟨"call_1", "lookupSolutions", "{}"⟩]
  exact ⟨h1, h4 ⟨"call_1", "lookupSolutions", "{}"⟩ (by simp) rfl⟩

/-- C5: the terminal outcome of the `runAssistant` polling loop is
determined by the run status: on `completed` it returns the latest
message's text and throws when that message's first content part is not
text; on `failed` it throws carrying the remote error code and message;
on `incomplete` it throws carrying the incompleteness detail; on an
unrecognized status it throws; and on `queued`/`in_progress` it just
keeps polling — so the call fails exactly in the listed failure cases. -/
theorem runDriver_terminal_outcome :
    ∀ (tools : Tools) (jsonParse : String → Except String String)
      (rest : List SvcStep) (log : List RunEv) (latest : MsgContent)
      (v ty d st : String) (c m : Option String),
      runAssistantLoop tools jsonParse (MsgContent.text v)
          (SvcStep.completed :: rest) log = (some (Except.ok v), log) ∧
      runAssistantLoop tools jsonParse (MsgContent.other ty)
          (SvcStep.completed :: rest) log =
        (some (Except.error ("Unknown message type: " ++ ty)), log) ∧
      runAssistantLoop tools jsonParse latest
          (SvcStep.failed c m :: rest) log =
        (some (Except.error
          ("Run failed with code " ++ jsShow c ++ ": " ++ jsShow m)), log) ∧
      runAssistantLoop tools jsonParse latest
          (SvcStep.incomplete d :: rest) log =
        (some (Except.error ("Run is incomplete: " ++ d)), log) ∧
      runAssistantLoop tools jsonParse latest
          (SvcStep.unknown st :: rest) log =
        (some (Except.error ("Unknown run status: " ++ st)), log) ∧
      runAssistantLoop tools jsonParse latest (SvcStep.queued :: rest) log =
        runAssistantLoop tools jsonParse latest rest log ∧
      runAssistantLoop tools jsonParse latest (SvcStep.inProgress :: rest) log =
        runAssistantLoop tools jsonParse latest rest log := by
  intro tools jsonParse rest log latest v ty d st c m
  refine ⟨rfl, rfl, rfl, rfl, rfl, rfl, rfl⟩

/-- C9: when `submitToolOutputs` itself throws, `runAssistant` swallows
the error and re-polls; a run that is then still `requires_action` with
the same tool calls has all its handlers invoked again, so a handler can
run more than once per tool call within one run — and the swallowed
submission error never reaches the caller (the loop still ends in
`Except.ok`). -/
theorem runDriver_submit_error_reinvokes :
    ∀ (tools : Tools) (jsonParse : String → Except String String)
      (calls : List ToolCall) (v : String),
      runAssistantLoop tools jsonParse (MsgContent.text v)
          [SvcStep.requiresAction calls false,
           SvcStep.requiresAction calls true,
           SvcStep.completed] [] =
        (some (Except.ok v),
          calls.map (fun tc => RunEv.invoked tc.name tc.id) ++
            [RunEv.submitFailed] ++
            calls.map (fun tc => RunEv.invoked tc.name tc.id) ++
            [RunEv.submitted (collectToolOutputs tools jsonParse calls)]) ∧
      (∀ tc ∈ calls,
        2 ≤ (calls.map (fun tc => RunEv.invoked tc.name tc.id) ++
            [RunEv.submitFailed] ++
            calls.map (fun tc => RunEv.invoked tc.name tc.id) ++
            [RunEv.submitted (collectToolOutputs tools jsonParse calls)]).count
          (RunEv.invoked tc.name tc.id)) := by
  intro tools jsonParse calls v
  constructor
  · simp [runAssistantLoop]
  · intro tc htc
    have hmem : RunEv.invoked tc.name tc.id ∈
        calls.map (fun tc => RunEv.invoked tc.name tc.id) :=
      List.mem_map_of_mem _ htc
    have h1 : 1 ≤ (calls.map (fun tc => RunEv.invoked tc.name tc.id)).count
        (RunEv.invoked tc.name tc.id) := List.count_pos_iff.mpr hmem
    simp only [List.count_append]
    omega

/-- Witness for C9 at a concrete cycle: one requested call of tool `t`;
after a failed submission and a re-poll its handler is invoked (at
least) twice. -/
theorem runDriver_submit_error_reinvokes_witness :
    2 ≤ ([⟨"call_1", "t", "{}"⟩].map
          (fun tc : ToolCall => RunEv.invoked tc.name tc.id) ++
        [RunEv.submitFailed] ++
        [⟨"call_1", "t", "{}"⟩].map
          (fun tc : ToolCall => RunEv.invoked tc.name tc.id) ++
        [RunEv.submitted (collectToolOutputs (fun _ => none)
          (fun s => Except.ok s) [⟨"call_1", "t", "{}"⟩])]).count
      (RunEv.invoked "t" "call_1") := by
  exact (runDriver_submit_error_reinvokes (fun _ => none)
      (fun s => Except.ok s) [⟨"call_1", "t", "{}"⟩] "4").2
    ⟨"call_1", "t", "{}"⟩ (by simp)

/-- C3 counterexample: `Bot.getThreadId` has no per-key initialization
lock — its cache check and its store are separated by
`await this.llm.createThread()`.  Two concurrent calls for the same
uninitialized chat id `c`, interleaved check/check/store/store, perform
two `createThread` allocations and resolve to two different handles
(the second store also overwrites the first one's map entry). -/
theorem getThreadId_concurrent_double_allocation :
    (runThreadRace
        { st := { threadIds := fun _ => none, allocCount := 0,
                  conv := fun _ => [] },
          calls := [("c", CallPhase.started), ("c", CallPhase.started)] }
        [0, 1, 0, 1]).st.allocCount = 2 ∧
    (runThreadRace
        { st := { threadIds := fun _ => none, allocCount := 0,
                  conv := fun _ => [] },
          calls := [("c", CallPhase.started), ("c", CallPhase.started)] }
        [0, 1, 0, 1]).calls =
      [("c", CallPhase.done "thread-0"), ("c", CallPhase.done "thread-1")] ∧
    "thread-0" ≠ "thread-1" := by
  refine ⟨by decide, by decide, by decide⟩

/-- C3 (amended): `getOrCreateThread` calls that run without
interleaving allocate exactly once — after a first call for an
uninitialized chat id completes, the handle is cached and a second call
returns the same handle with no further allocation and no state
change. -/
theorem getThreadId_sequential_single_allocation :
    ∀ (s : BotState) (c : String), s.threadIds c = none →
      (getThreadId s c).2.threadIds c = some (getThreadId s c).1 ∧
      (getThreadId s c).2.allocCount = s.allocCount + 1 ∧
      getThreadId (getThreadId s c).2 c =
        ((getThreadId s c).1, (getThreadId s c).2) := by
  intro s c h
  simp [getThreadId, h, upd_same]

/-- Witness for the amended C3 at a concrete state: chat id `c` is
uninitialized; one call allocates and caches, the second call is a pure
cache hit. -/
theorem getThreadId_sequential_single_allocation_witness :
    (getThreadId { threadIds := fun _ => none, allocCount := 0,
                   conv := fun _ => [] } "c").2.threadIds "c" =
      some (getThreadId { threadIds := fun _ => none, allocCount := 0,
                          conv := fun _ => [] } "c").1 ∧
    (getThreadId { threadIds := fun _ => none, allocCount := 0,
                   conv := fun _ => [] } "c").2.allocCount = 0 + 1 ∧
    getThreadId (getThreadId { threadIds := fun _ => none, allocCount := 0,
                               conv := fun _ => [] } "c").2 "c" =
      ((getThreadId { threadIds := fun _ => none, allocCount := 0,
                      conv := fun _ => [] } "c").1,
       (getThreadId { threadIds := fun _ => none, allocCount := 0,
                      conv := fun _ => [] } "c").2) :=
  getThreadId_sequential_single_allocation
    { threadIds := fun _ => none, allocCount := 0, conv := fun _ => [] }
    "c" rfl

/-- C7: the chat-id → thread-id map only grows.  A `getThreadId` call for
a cached chat id returns the identical cached handle and changes nothing
(in particular it performs no allocation), and no sequence of `Bot`
operations (`getThreadId`, `addMessage`, `response`) ever removes or
replaces an entry once stored. -/
theorem threadIds_monotone :
    (∀ (s : BotState) (c t : String), s.threadIds c = some t →
      applyBotOp s (BotOp.getThread c) = (s, BotResult.gotThread t)) ∧
    (∀ (s : BotState) (ops : List BotOp) (c t : String),
      s.threadIds c = some t → (applyBotOps s ops).threadIds c = some t) := by
  have hget : ∀ (s : BotState) (c' c t : String), s.threadIds c = some t →
      (getThreadId s c').2.threadIds c = some t := by
    intro s c' c t h
    cases h' : s.threadIds c' with
    | some t' => simp [getThreadId, h', h]
    | none =>
      by_cases hc : c = c'
      · subst hc; rw [h] at h'; exact absurd h' (by simp)
      · simp [getThreadId, h', upd_other _ _ _ _ hc, h]
  constructor
  · intro s c t h
    simp [applyBotOp, getThreadId, h]
  · intro s ops
    induction ops generalizing s with
    | nil => intro c t h; exact h
    | cons op ops ih =>
      intro c t h
      simp only [applyBotOps]
      apply ih
      cases op with
      | getThread c' => simpa [applyBotOp] using hget s c' c t h
      | addMessage c' msg => simpa [applyBotOp] using hget s c' c t h
      | response c' => simpa [applyBotOp] using h

/-- Witness for C7 at a concrete state: chat id `c` is cached as
`thread-0`; a repeated lookup is a pure cache hit, and a sequence of
further operations leaves the entry intact. -/
theorem threadIds_monotone_witness :
    applyBotOp
        { threadIds := upd (fun _ => none) "c" (some "thread-0"),
          allocCount := 1, conv := fun _ => [] }
        (BotOp.getThread "c") =
      ({ threadIds := upd (fun _ => none) "c" (some "thread-0"),
         allocCount := 1, conv := fun _ => [] }, BotResult.gotThread "thread-0") ∧
    (applyBotOps
        { threadIds := upd (fun _ => none) "c" (some "thread-0"),
          allocCount := 1, conv := fun _ => [] }
        [BotOp.getThread "c", BotOp.addMessage "d" "hi",
         BotOp.response "c"]).threadIds "c" = some "thread-0" :=
  ⟨threadIds_monotone.1 _ "c" "thread-0" (by simp [upd_same]),
   threadIds_monotone.2 _ _ "c" "thread-0" (by simp [upd_same])⟩

/-- C10: `Bot.response` neither creates nor modifies any channel-to-thread
mapping: the whole state (the `threadIds` map, the allocation count and
the conversations) is returned unchanged, and the thread handle passed to
`runAssistant` is exactly the raw map read — for a chat id with no entry
the run is attempted with the JavaScript `undefined` (`none`) instead of
failing fast. -/
theorem response_no_thread_mutation :
    ∀ (s : BotState) (c : String),
      applyBotOp s (BotOp.response c) = (s, BotResult.ranWith (s.threadIds c)) ∧
      (s.threadIds c = none →
        applyBotOp s (BotOp.response c) = (s, BotResult.ranWith none)) := by
  intro s c
  refine ⟨rfl, ?_⟩
  intro h
  simp [applyBotOp, h]

/-- Witness for C10 at a concrete state with no entry for `c`: `response`
leaves the state unchanged and attempts the run with a missing handle. -/
theorem response_no_thread_mutation_witness :
    applyBotOp { threadIds := fun _ => none, allocCount := 0,
                 conv := fun _ => [] } (BotOp.response "c") =
      ({ threadIds := fun _ => none, allocCount := 0, conv := fun _ => [] },
       BotResult.ranWith none) :=
  (response_no_thread_mutation
    { threadIds := fun _ => none, allocCount := 0, conv := fun _ => [] }
    "c").2 rfl

/-- C6 counterexample: the replay and the activation mark are not
atomic.  A first `activateDMChannel` call whose replay rejects after one
message (of a two-message history) swallows the error and does not mark
the channel active; the second call then fails the membership guard and
replays the whole history again — the replay runs twice and the
already-replayed prefix is duplicated, refuting "performs the history
replay exactly once; the second call is a no-op". -/
theorem activateDMChannel_partial_failure_counterexample :
    (activateDMChannel { activeDMChannels := [], replayed := fun _ => [] }
        "dm1" [⟨"m2", 2⟩, ⟨"m1", 1⟩] (some 1)).activeDMChannels = [] ∧
    (activateDMChannel { activeDMChannels := [], replayed := fun _ => [] }
        "dm1" [⟨"m2", 2⟩, ⟨"m1", 1⟩] (some 1)).replayed "dm1" =
      [⟨"m1", 1⟩] ∧
    (activateDMChannel
        (activateDMChannel { activeDMChannels := [], replayed := fun _ => [] }
          "dm1" [⟨"m2", 2⟩, ⟨"m1", 1⟩] (some 1))
        "dm1" [⟨"m2", 2⟩, ⟨"m1", 1⟩] none).replayed "dm1" =
      [⟨"m1", 1⟩, ⟨"m1", 1⟩, ⟨"m2", 2⟩] := by
  refine ⟨by decide, by decide, by decide⟩

/-- C6 (amended): `activateDMChannel` is idempotent and replays exactly
once *when the first call's replay succeeds*: the fetched history is
appended in reverse order (oldest first whenever the fetch is
newest-first sorted) and the channel is marked active, after which any
further call — with any fetch result and any failure behavior — is a
no-op that returns without error.  If an append rejects mid-replay, the
error is swallowed, only the prefix before the failure is appended, and
the channel is *not* marked active (so a later call replays again). -/
theorem activateDMChannel_activation :
    ∀ (s : DiscordState) (c : String) (fetched : List DMsg),
      c ∉ s.activeDMChannels →
      (activateDMChannel s c fetched none).replayed c =
        s.replayed c ++ fetched.reverse ∧
      c ∈ (activateDMChannel s c fetched none).activeDMChannels ∧
      (∀ (fetched2 : List DMsg) (failAt2 : Option Nat),
        activateDMChannel (activateDMChannel s c fetched none) c
            fetched2 failAt2 =
          activateDMChannel s c fetched none) ∧
      (∀ j : Nat, j < fetched.reverse.length →
        (activateDMChannel s c fetched (some j)).replayed c =
          s.replayed c ++ fetched.reverse.take j ∧
        (activateDMChannel s c fetched (some j)).activeDMChannels =
          s.activeDMChannels) ∧
      (List.Pairwise (fun a b : DMsg => b.ts ≤ a.ts) fetched →
        List.Pairwise (fun a b : DMsg => a.ts ≤ b.ts) fetched.reverse) := by
  intro s c fetched h
  have hmem : c ∈ (activateDMChannel s c fetched none).activeDMChannels := by
    simp [activateDMChannel, h]
  have hguard : ∀ (s' : DiscordState) (f2 : List DMsg) (fa2 : Option Nat),
      c ∈ s'.activeDMChannels → activateDMChannel s' c f2 fa2 = s' := by
    intro s' f2 fa2 hc
    rw [activateDMChannel.eq_def, if_pos hc]
  refine ⟨?_, hmem, ?_, ?_, ?_⟩
  · simp [activateDMChannel, h, upd_same]
  · intro fetched2 failAt2
    exact hguard _ fetched2 failAt2 hmem
  · intro j hj
    have hj' : j < fetched.length := by simpa using hj
    constructor
    · simp [activateDMChannel, h, hj', upd_same]
    · simp [activateDMChannel, h, hj']
  · intro hsorted
    exact List.pairwise_reverse.mpr hsorted

/-- Witness for the amended C6 at a concrete state: a fresh DM channel
with a two-message newest-first history; a successful activation
replays it oldest first and a repeated call is a no-op, while a
mid-replay failure at index 1 leaves the channel unactivated. -/
theorem activateDMChannel_activation_witness :
    (activateDMChannel { activeDMChannels := [], replayed := fun _ => [] }
        "dm1" [⟨"m2", 2⟩, ⟨"m1", 1⟩] none).replayed "dm1" =
      [] ++ [(⟨"m2", 2⟩ : DMsg), ⟨"m1", 1⟩].reverse ∧
    "dm1" ∈ (activateDMChannel
        { activeDMChannels := [], replayed := fun _ => [] }
        "dm1" [⟨"m2", 2⟩, ⟨"m1", 1⟩] none).activeDMChannels ∧
    activateDMChannel
        (activateDMChannel { activeDMChannels := [], replayed := fun _ => [] }
          "dm1" [⟨"m2", 2⟩, ⟨"m1", 1⟩] none)
        "dm1" [⟨"m2", 2⟩, ⟨"m1", 1⟩] none =
      activateDMChannel { activeDMChannels := [], replayed := fun _ => [] }
        "dm1" [⟨"m2", 2⟩, ⟨"m1", 1⟩] none ∧
    (activateDMChannel { activeDMChannels := [], replayed := fun _ => [] }
        "dm1" [⟨"m2", 2⟩, ⟨"m1", 1⟩] (some 1)).activeDMChannels = [] := by
  obtain ⟨h1, h2, h3, h4, _⟩ := activateDMChannel_activation
    { activeDMChannels := [], replayed := fun _ => [] }
    "dm1" [⟨"m2", 2⟩, ⟨"m1", 1⟩] (by simp)
  exact ⟨h1, h2, h3 [⟨"m2", 2⟩, ⟨"m1", 1⟩] none, (h4 1 (by simp)).2⟩

/-- C8 counterexample: the `/subscribe` handler pushes the channel id
unconditionally, so subscribing a channel that is already in
`subscriberChannels` does not leave the collection unchanged — it adds a
duplicate — and the next broadcast is delivered to that channel twice,
not at most once. -/
theorem subscribe_duplicate_counterexample :
    subscribeChannel ["c1"] "c1" ≠ ["c1"] ∧
    (broadcastDeliveries (subscribeChannel ["c1"] "c1") "botd").count
      ("c1", "botd") = 2 := by
  constructor
  · simp [subscribeChannel]
  · simp [subscribeChannel, broadcastDeliveries]

/-- C8 (amended): `subscriberChannels` is a plain array, not a set.
Subscribing always appends the channel id (so re-subscribing adds a
duplicate and increments the channel's multiplicity), each broadcast is
delivered once per list occurrence — exactly the channel's multiplicity,
which can exceed one — and unsubscribing removes all occurrences. -/
theorem subscribe_append_semantics :
    ∀ (subs : List String) (c : String) (b : String),
      subscribeChannel subs c = subs ++ [c] ∧
      (subscribeChannel subs c).count c = subs.count c + 1 ∧
      (broadcastDeliveries subs b).count (c, b) = subs.count c ∧
      (broadcastDeliveries subs b).length = subs.length ∧
      (unsubscribeChannel subs c).count c = 0 := by
  intro subs c b
  refine ⟨rfl, ?_, ?_, ?_, ?_⟩
  · simp [subscribeChannel]
  · induction subs with
    | nil => rfl
    | cons a l ih =>
      simp only [broadcastDeliveries, List.map_cons, List.count_cons] at ih ⊢
      rw [ih]
      by_cases h : a = c
      · subst h; simp
      · simp [h]
  · simp [broadcastDeliveries]
  · simp [unsubscribeChannel, List.count_eq_zero]

end Botd
